import Mathlib

/-!
Shallow embedding of the BPO_2025 scheduling-policy subsystem
(admission-wave planner `or.py`, contextual-bandit staffing planner `rl.py`,
fixed-schedule replay adapters `GASA.py`, calibration extractor
`process_mining.py`), together with theorems settling the frozen claims.

Conventions of the embedding:
* simulation times are modelled as natural numbers of hours (the planners are
  exercised by the engine at integer hours; Python `int()` truncation on such
  values is the identity);
* Python floats are modelled as exact rationals `ℚ`;
* Python dicts with a `.get(k, default)` read pattern are modelled as
  association lists (`List (key × value)`) read through a first-match lookup,
  with insertion modelled by prepending;
* the unbounded `while pending:` roll-forward loop of `ORPlanner.plan` is
  modelled with an explicit fuel parameter; a theorem shows a concrete fuel
  bound under which the loop provably terminates with an empty queue.
-/

namespace BPO

set_option maxRecDepth 100000

/- `decide`-based evaluation of the embedding needs the kernel-level
reduction of rational arithmetic; these four Batteries definitions are
`@[irreducible]` only to keep `simp`/`rw` from unfolding them, and are made
semireducible here so that concrete runs of the planners evaluate. -/
attribute [local semireducible] Rat.mul Rat.inv Rat.add Rat.sub Rat.ofScientific

/-! ## Definitions: the shallow embedding -/

/-- Closed enumeration of resource types (`problems.ResourceType`). -/
inductive ResourceType where
  | OR
  | A_BED
  | B_BED
  | INTAKE
  | ER_PRACTITIONER
deriving DecidableEq, Repr

/-- Python `int()` applied to a float: truncation toward zero. -/
def pyInt (x : ℚ) : ℤ :=
  if 0 ≤ x then ⌊x⌋ else -⌊-x⌋

/-- Ordering used to model Python's stable descending sort
`sorted(range(n), key=rem, reverse=True)` on the duplicate-free index list
`range n`: descending by key, ties broken by ascending original index.
A stable sort of a duplicate-free index list coincides with sorting by the
lexicographic (key descending, index ascending) order, which is a linear
order, so any sorting algorithm produces the same (unique) result. -/
def remLT (rem : ℕ → ℚ) (i j : ℕ) : Prop :=
  rem j < rem i ∨ (rem i = rem j ∧ i ≤ j)

instance (rem : ℕ → ℚ) : DecidableRel (remLT rem) := fun i j => by
  unfold remLT; infer_instance

/-- `ORPlanner._split_quota`: turn a total day quota into integer sub-quotas
per wave, truncating each ideal share and handing the leftover units to the
waves with the largest fractional remainders (stable order on ties). -/
def split_quota (total : ℕ) (fractions : List ℚ) : List ℤ :=
  let raw := fractions.map (fun f => f * (total : ℚ))
  let ints := raw.map pyInt
  let leftover : ℤ := (total : ℤ) - ints.sum
  if 0 < leftover then
    let rem : ℕ → ℚ := fun i => raw.getD i 0 - ((ints.getD i 0 : ℤ) : ℚ)
    let order := (List.range raw.length).insertionSort (remLT rem)
    let sel := order.take leftover.toNat
    (List.range ints.length).map
      (fun i => ints.getD i 0 + if i ∈ sel then 1 else 0)
  else
    ints

/-- The six admission-wave fractional shares of `ORPlanner.plan`. -/
def wave_frac : List ℚ := [36/100, 22/100, 16/100, 12/100, 8/100, 6/100]

/-- Ledger key `(week, weekday 1..7, hour-of-day)` of `ORPlanner._used`. -/
abbrev Key := ℕ × ℕ × ℕ

/-- The capacity ledger `ORPlanner._used`, a Python dict modelled as an
association list read through `lget` (first match wins, default 0). -/
abbrev Used := List (Key × ℕ)

/-- `self._used.get(key, 0)`. -/
def lget (u : Used) (k : Key) : ℕ :=
  ((u.find? (fun p => p.1 = k)).map Prod.snd).getD 0

/-- `self._used[key] = v` (prepend; `lget` sees the newest binding). -/
def lset (u : Used) (k : Key) (v : ℕ) : Used := (k, v) :: u

/-- The default weekly capacity table `WEEKLY_CAP` of `or.py`
(the same levels on every day 1..7). -/
def WEEKLY_CAP : ResourceType → ℕ → ℕ
  | .OR, _ => 5
  | .A_BED, _ => 30
  | .B_BED, _ => 40
  | .INTAKE, _ => 4
  | .ER_PRACTITIONER, _ => 9

/-- `next_8am_at_or_after` of `or.py` (integer hours). -/
def next_8am_at_or_after (t : ℕ) : ℕ :=
  let hod := t % 24
  let base := t - hod
  if hod ≤ 8 then base + 8 else base + 32

/-- `dow_1_to_7` of `or.py`. -/
def dow_1_to_7 (t : ℕ) : ℕ := (t / 24) % 7 + 1

/-- `ORPlanner._daily_quota`. -/
def daily_quota (cap : ResourceType → ℕ → ℕ) (d : ℕ) : ℕ :=
  let i := cap .INTAKE d
  let er := cap .ER_PRACTITIONER d
  let beds := cap .A_BED d + cap .B_BED d
  let q := min (min (14 * i) (6 * er)) beds
  max 48 (min q 64)

/-- The backlog-aware, warm-start-adjusted day quota computed inside
`ORPlanner.plan` (both in the two-day horizon and in the roll-forward loop):
`min(cap_max, max(floor, quota_day + boost))`. -/
def day_quota_adjusted (cap : ResourceType → ℕ → ℕ)
    (d backlog dse : ℕ) : ℕ :=
  let q := daily_quota cap d
  let boost := min (q / 2) (backlog / 6)
  let warm := dse < 14
  let flo := if warm then 56 else 50
  let cap_max := if warm ∨ backlog > 150 then 72 else 64
  min cap_max (max flo (q + boost))

/-- The six admission-wave hour offsets after 08:00 (`waves` in `or.py`). -/
def waves : List ℕ := [0, 2, 4, 6, 8, 12]

/-- One precomputed wave slot of the two-day horizon:
`(absolute_time, capacity_remaining, key_for_used)`. -/
def day_slots (cap : ResourceType → ℕ → ℕ) (used : Used)
    (base8 backlog offset : ℕ) : List (ℕ × ℕ × Key) :=
  let day_start := base8 + 24 * offset
  let d := dow_1_to_7 day_start
  let w := day_start / 168
  let dse := base8 / 24
  let quota := day_quota_adjusted cap d backlog dse
  let subqs := split_quota quota wave_frac
  (List.range waves.length).map (fun idx =>
    let tslot := day_start + waves.getD idx 0
    let key : Key := (w, d, tslot % 24)
    let already := lget used key
    let capv := (max 0 (subqs.getD idx 0 - (already : ℤ))).toNat
    (tslot, capv, key))

/-- Pop `k` cases off the end of the pending queue (`pending.pop()`),
appending each to the decision list at time `tslot`. -/
def place_cases : ℕ → ℕ → List ℕ × List (ℕ × ℕ) → List ℕ × List (ℕ × ℕ)
  | 0, _, st => st
  | k + 1, tslot, (pending, out) =>
    match pending.getLast? with
    | none => (pending, out)
    | some c => place_cases k tslot (pending.dropLast, out ++ [(c, tslot)])

/-- Drain the pending queue through a precomputed list of wave slots
(the `for idx in range(len(slots))` loop of the two-day horizon). -/
def fill_slots : List (ℕ × ℕ × Key) → List ℕ × List (ℕ × ℕ) × Used →
    List ℕ × List (ℕ × ℕ) × Used
  | [], st => st
  | (tslot, capv, key) :: rest, (pending, out, used) =>
    let k := min capv pending.length
    let st' := place_cases k tslot (pending, out)
    fill_slots rest (st'.1, st'.2, lset used key (lget used key + k))

/-- The wave loop of the roll-forward `while pending:` body, where capacity
remaining is computed against the ledger as the waves are filled. -/
def roll_waves : List (ℕ × ℕ) → ℕ → ℕ → ℕ → List ℤ →
    List ℕ × List (ℕ × ℕ) × Used → List ℕ × List (ℕ × ℕ) × Used
  | [], _, _, _, _, st => st
  | (i, h) :: rest, day_start, w, d, subqs, (pending, out, used) =>
    let tslot := day_start + h
    let key : Key := (w, d, tslot % 24)
    let already := lget used key
    let capv := (max 0 (subqs.getD i 0 - (already : ℤ))).toNat
    let k := min capv pending.length
    let st' := place_cases k tslot (pending, out)
    roll_waves rest day_start w d subqs (st'.1, st'.2, lset used key (already + k))

/-- The roll-forward `while pending:` loop of `ORPlanner.plan`, with an
explicit fuel bound on the number of day iterations. -/
def roll_forward (cap : ResourceType → ℕ → ℕ) (replanCount base8 : ℕ) :
    ℕ → ℕ → List ℕ → List (ℕ × ℕ) → Used → Option (List (ℕ × ℕ) × Used)
  | 0, _, pending, out, used =>
    if pending.isEmpty then some (out, used) else none
  | fuel + 1, day_offset, pending, out, used =>
    if pending.isEmpty then some (out, used) else
    let day_start := base8 + 24 * day_offset
    let d := dow_1_to_7 day_start
    let w := day_start / 168
    let backlog := pending.length + replanCount
    let dse := base8 / 24 + day_offset
    let quota := day_quota_adjusted cap d backlog dse
    let subqs := split_quota quota wave_frac
    let st := roll_waves waves.enum day_start w d subqs (pending, out, used)
    roll_forward cap replanCount base8 fuel (day_offset + 1) st.1 st.2.1 st.2.2

/-- `ORPlanner.plan`: two-day horizon precomputed against the ledger, greedy
fill of day 1 then day 2, then roll-forward one day at a time until the
pending queue is empty.  The ledger state is threaded explicitly; re-plan
requests contribute only their count (they are never batched). -/
def orPlan (cap : ResourceType → ℕ → ℕ) (used : Used)
    (toPlan toReplan : List ℕ) (simulation_time fuel : ℕ) :
    Option (List (ℕ × ℕ) × Used) :=
  let earliest := simulation_time + 24
  let base8 := next_8am_at_or_after earliest
  if toPlan.isEmpty then some ([], used)
  else
    let backlog := toPlan.length + toReplan.length
    let slots0 := day_slots cap used base8 backlog 0
    let slots1 := day_slots cap used base8 backlog 1
    let st1 := fill_slots slots0 (toPlan, [], used)
    let st2 := fill_slots slots1 st1
    roll_forward cap toReplan.length base8 fuel 2 st2.1 st2.2.1 st2.2.2

/-- The day index `7·week + (weekday−1)` of a ledger key. -/
def dayIdx (k : Key) : ℕ := 7 * k.1 + (k.2.1 - 1)

/-- The ledger key of wave `idx` on horizon day `off` (`off ∈ {0, 1}`) of
`ORPlanner.plan` called with `base8` as the first 08:00 slot. -/
def horizon_key (base8 off idx : ℕ) : Key :=
  ((base8 + 24 * off) / 168, dow_1_to_7 (base8 + 24 * off),
    (base8 + 24 * off + waves.getD idx 0) % 24)

/-- The wave sub-quota of wave `idx` on horizon day `off` as computed by the
two-day horizon of `ORPlanner.plan`. -/
def horizon_subq (cap : ResourceType → ℕ → ℕ) (base8 backlog off idx : ℕ) : ℤ :=
  (split_quota
    (day_quota_adjusted cap (dow_1_to_7 (base8 + 24 * off)) backlog (base8 / 24))
    wave_frac).getD idx 0

/-- `next_day_0800` of `rl.py` (integer hours; `START_DT` is 2018-01-01
00:00, so hour `h` falls on calendar day `h / 24`). -/
def next_day_0800 (h days_ahead : ℕ) : ℕ :=
  max (h + 1) ((h / 24 + days_ahead) * 24 + 8)

/-- `datetime.weekday()` of simulation hour `h`: 2018-01-01 was a Monday,
so Monday = 0. -/
def weekday (h : ℕ) : ℕ := (h / 24) % 7

/-- `is_weekend` of `rl.py`. -/
def is_weekend (h : ℕ) : Bool := 5 ≤ weekday h

/-- The admission loop of `RLSubmissionPlanner.plan`: first-slot capacity,
then half-capacity spill into the second slot, then stop. -/
def rl_plan_loop : List ℕ → ℕ → ℕ → ℕ → ℕ → List (ℕ × ℕ)
  | [], _, _, _, _ => []
  | cid :: rest, cap1, cap2, slot1, slot2 =>
    if 0 < cap1 then (cid, slot1) :: rl_plan_loop rest (cap1 - 1) cap2 slot1 slot2
    else if 0 < cap2 then (cid, slot2) :: rl_plan_loop rest cap1 (cap2 - 1) slot1 slot2
    else []

/-- `RLSubmissionPlanner.plan`. -/
def rl_plan (toPlan : List ℕ) (simulation_time : ℕ) : List (ℕ × ℕ) :=
  let slot1p := next_day_0800 simulation_time 1
  let slot1 := if slot1p < simulation_time + 24
    then next_day_0800 simulation_time 2 else slot1p
  let slot2 := next_day_0800 simulation_time 2
  let cap1 := if ¬ is_weekend simulation_time then 6 else 2
  let cap2 := max 1 (cap1 / 2)
  rl_plan_loop toPlan cap1 cap2 slot1 slot2

/-- Bandit state tuple `(weekday, backlog_bin, overtime_flag)`. -/
abbrev BState := ℕ × ℕ × ℕ

/-- The mutable state of `RLSubmissionPlanner` (the Q-table and visit-count
defaultdicts are modelled as total functions defaulting to 0; the
`_scheduled` dict is keyed by time only since only `ResourceType.OR` is ever
written). -/
structure RLState where
  Q : BState → ℕ → ℚ
  N : BState → ℕ → ℕ
  last_state : Option BState
  last_action : Option ℕ
  admit_wait : ℚ
  in_hosp_wait : ℚ
  nerv : ℚ
  cost : ℚ
  overtime : ℕ
  ready_or : ℕ
  last_level : ℕ
  max_or : ℕ
  scheduled : ℕ → Option ℕ
  epsilon : ℚ

/-- The freshly constructed planner state (`RLSubmissionPlanner.__init__`). -/
def rl_init (epsilon : ℚ) : RLState where
  Q := fun _ _ => 0
  N := fun _ _ => 0
  last_state := none
  last_action := none
  admit_wait := 0
  in_hosp_wait := 0
  nerv := 0
  cost := 0
  overtime := 0
  ready_or := 0
  last_level := 5
  max_or := 5
  scheduled := fun _ => none
  epsilon := epsilon

/-- One incremental-mean update: `N += 1; Q += (r − Q) / N`
(`RLSubmissionPlanner.schedule`, update of the last (state, action) pair). -/
def qUpdate (q : ℚ) (n : ℕ) (rew : ℚ) : ℚ × ℕ :=
  (q + (rew - q) / (n + 1), n + 1)

/-- `max(q, key=q.get)` over the action dict `{2:…, 3:…, 4:…, 5:…}`:
the first action (in insertion order 2,3,4,5) with maximal value. -/
def argmax_q (f : ℕ → ℚ) : ℕ :=
  [3, 4, 5].foldl (fun best k => if f best < f k then k else best) 2

/-- The near-term emission slot of `RLSubmissionPlanner.schedule`:
`max(simulation_time + 14, next_day_0800(simulation_time, 1))`. -/
def rl_start_t (t : ℕ) : ℕ := max (t + 14) (next_day_0800 t 1)

/-- The `if self.last_state is not None and self.last_action is not None`
block of `RLSubmissionPlanner.schedule`: close the loop on the previous
(state, action) pair with reward
`r = −(admit_wait + in_hosp_wait + nerv + 3·cost)`. -/
def rl_close_loop (s : RLState) : RLState :=
  match s.last_state, s.last_action with
  | some ls, some la =>
    let r := -(s.admit_wait + s.in_hosp_wait + s.nerv + 3 * s.cost)
    let qn := qUpdate (s.Q ls la) (s.N ls la) r
    { s with
      Q := fun b a => if b = ls ∧ a = la then qn.1 else s.Q b a,
      N := fun b a => if b = ls ∧ a = la then qn.2 else s.N b a }
  | _, _ => s

/-- `RLSubmissionPlanner.schedule`.  The two random draws of the ε-greedy
rule (`random.random()` and `random.choice([2,3,4,5])`) are injected as the
parameters `rnd` and `choice`. -/
def rl_schedule (s : RLState) (t : ℕ) (rnd : ℚ) (choice : ℕ) :
    RLState × List (ResourceType × ℕ × ℕ) :=
  if t % 24 ≠ 18 then (s, [])
  else
    let wd := weekday t
    let backlog_bin := min 3 (s.ready_or / 5)
    let overtime_flag := if s.overtime ≠ 0 then 1 else 0
    let st : BState := (wd, backlog_bin, overtime_flag)
    let s1 := rl_close_loop s
    let a := if rnd < s1.epsilon then choice else argmax_q (s1.Q st)
    let s2 := { s1 with admit_wait := 0, in_hosp_wait := 0, nerv := 0,
                        cost := 0, overtime := 0 }
    let start_t := rl_start_t t
    let chosen := min s2.max_or (max 2 a)
    let existing := (s2.scheduled start_t).getD s2.last_level
    let near := max existing (max s2.last_level chosen)
    let s3 := { s2 with last_level := near }
    let sched1 := if s3.scheduled start_t ≠ some near
      then [(ResourceType.OR, start_t, near)] else []
    let s4 := if s3.scheduled start_t ≠ some near
      then { s3 with scheduled := fun t' =>
              if t' = start_t then some near else s3.scheduled t' }
      else s3
    let week_ahead := start_t + 168
    let sched2 := if s4.scheduled week_ahead ≠ some chosen
      then [(ResourceType.OR, week_ahead, chosen)] else []
    let s5 := if s4.scheduled week_ahead ≠ some chosen
      then { s4 with scheduled := fun t' =>
              if t' = week_ahead then some chosen else s4.scheduled t' }
      else s4
    let s6 := { s5 with last_state := some st, last_action := some a }
    (s6, sched1 ++ sched2)

/-- `FixedPlanner.plan` / `OfflinePlanner.plan`: return the recorded
admission time of each requested case, falling back to `now + 24` for cases
absent from the assignment.  The assignment dict is an association list
looked up by case id. -/
def fixedPlan (adm_schedule : List (ℕ × ℕ)) (toPlan : List ℕ) (now : ℕ) :
    List (ℕ × ℕ) :=
  toPlan.map (fun cid =>
    (cid, (((adm_schedule.find? (fun p => p.1 = cid)).map Prod.snd).getD
      (now + 24))))

/-- One event-log row, reduced to the fields the duration loop reads:
the activity label and the duration `completion_time − start_time` in
seconds (`none` models an undefined/NaT duration, which pandas turns into
NaN). -/
abbrev LogRow := String × Option ℚ

/-- `df['event_label'].unique()`: the activity labels in first-occurrence
order. -/
def activitiesOf (rows : List LogRow) : List String :=
  (rows.map Prod.fst).eraseDups

/-- The non-NaN durations of one activity, in row order
(pandas `mean`/`std` skip NaN entries). -/
def durationsOf (rows : List LogRow) (act : String) : List ℚ :=
  rows.filterMap (fun r => if r.1 = act then r.2 else none)

/-- `mean_sec[activity]` as produced by the duration loop: only activities
present in the log get an entry; an activity whose rows all have undefined
durations falls back to 3600. -/
def mean_sec (rows : List LogRow) (act : String) : Option ℚ :=
  if act ∈ activitiesOf rows then
    let ds := durationsOf rows act
    some (if ds.isEmpty then 3600 else ds.sum / ds.length)
  else none

/-- `std_sec[activity]`, represented by the *square* of the sample standard
deviation (pandas `std`, `ddof = 1`), since the standard deviation itself is
irrational in general.  The outer `Option` is entry presence; the inner
`Option` is `none` when pandas `std` is NaN (a single sample); the fallback
for an activity whose rows all have undefined durations is `1800 · 1800`. -/
def std_sq_sec (rows : List LogRow) (act : String) : Option (Option ℚ) :=
  if act ∈ activitiesOf rows then
    let ds := durationsOf rows act
    some (if ds.isEmpty then some (1800 * 1800)
      else if ds.length = 1 then none
      else some ((ds.map (fun d =>
        (d - ds.sum / ds.length) * (d - ds.sum / ds.length))).sum /
        (ds.length - 1)))
  else none

instance remLT_total (rem : ℕ → ℚ) : IsTotal ℕ (remLT rem) where
  total i j := by
    unfold remLT
    rcases lt_trichotomy (rem i) (rem j) with h | h | h
    · exact Or.inr (Or.inl h)
    · rcases le_total i j with hij | hij
      · exact Or.inl (Or.inr ⟨h, hij⟩)
      · exact Or.inr (Or.inr ⟨h.symm, hij⟩)
    · exact Or.inl (Or.inl h)

instance remLT_trans (rem : ℕ → ℚ) : IsTrans ℕ (remLT rem) where
  trans i j k hij hjk := by
    unfold remLT at *
    rcases hij with h1 | ⟨h1, h1'⟩ <;> rcases hjk with h2 | ⟨h2, h2'⟩
    · exact Or.inl (h2.trans h1)
    · exact Or.inl (h2 ▸ h1)
    · exact Or.inl (h1 ▸ h2)
    · exact Or.inr ⟨h1.trans h2, h1'.trans h2'⟩

/-! ## Supporting lemmas -/

theorem place_cases_length (k t : ℕ) (p : List ℕ) (out : List (ℕ × ℕ)) :
    (place_cases k t (p, out)).1.length = p.length - k := by
  induction k generalizing p out with
  | zero => simp [place_cases]
  | succ k ih =>
    cases hp : p.getLast? with
    | none =>
      have : p = [] := by
        cases p with
        | nil => rfl
        | cons a l => simp [List.getLast?_concat, List.getLast?_eq_getLast] at hp
      subst this; simp [place_cases, hp]
    | some c =>
      have hne : p ≠ [] := by rintro rfl; simp at hp
      simp only [place_cases, hp]
      rw [ih]
      rw [List.length_dropLast]
      omega

theorem place_cases_perm (k t : ℕ) (p : List ℕ) (out : List (ℕ × ℕ)) :
    ((place_cases k t (p, out)).2.map Prod.fst ++ (place_cases k t (p, out)).1).Perm
      (out.map Prod.fst ++ p) := by
  induction k generalizing p out with
  | zero => simp [place_cases]
  | succ k ih =>
    cases hp : p.getLast? with
    | none => simp [place_cases, hp]
    | some c =>
      have hne : p ≠ [] := by rintro rfl; simp at hp
      have hsplit : p.dropLast ++ [c] = p := by
        have h1 := List.dropLast_append_getLast hne
        have h2 : p.getLast hne = c := by
          rw [List.getLast?_eq_getLast p hne] at hp
          exact Option.some_inj.mp hp
        rw [h2] at h1
        exact h1
      simp only [place_cases, hp]
      refine (ih p.dropLast (out ++ [(c, t)])).trans ?_
      rw [← hsplit]
      simp only [List.map_append, List.map_cons, List.map_nil, List.append_assoc]
      exact List.Perm.append_left _ (List.perm_append_comm.trans (by simp))

theorem place_cases_out_mem (k t : ℕ) (p : List ℕ) (out : List (ℕ × ℕ)) :
    ∀ x ∈ (place_cases k t (p, out)).2, x ∈ out ∨ x.2 = t := by
  induction k generalizing p out with
  | zero => intro x hx; exact Or.inl hx
  | succ k ih =>
    cases hp : p.getLast? with
    | none => intro x hx; simp only [place_cases, hp] at hx; exact Or.inl hx
    | some c =>
      intro x hx
      simp only [place_cases, hp] at hx
      rcases ih _ _ x hx with h | h
      · rcases List.mem_append.1 h with h | h
        · exact Or.inl h
        · simp at h; subst h; exact Or.inr rfl
      · exact Or.inr h

theorem lget_lset_self (u : Used) (k : Key) (v : ℕ) : lget (lset u k v) k = v := by
  simp [lget, lset, List.find?]

theorem lget_lset_ne (u : Used) (k k' : Key) (v : ℕ) (h : k ≠ k') :
    lget (lset u k v) k' = lget u k' := by
  simp only [lget, lset, List.find?]
  have : (decide (k = k')) = false := by simpa using h
  simp [this]

theorem fill_slots_perm (slots : List (ℕ × ℕ × Key)) (p : List ℕ)
    (out : List (ℕ × ℕ)) (u : Used) :
    ((fill_slots slots (p, out, u)).2.1.map Prod.fst ++
      (fill_slots slots (p, out, u)).1).Perm (out.map Prod.fst ++ p) := by
  induction slots generalizing p out u with
  | nil => simp [fill_slots]
  | cons s rest ih =>
    obtain ⟨tslot, capv, key⟩ := s
    simp only [fill_slots]
    have hpl := place_cases_perm (min capv p.length) tslot p out
    exact (ih _ _ _).trans hpl

theorem fill_slots_length_le (slots : List (ℕ × ℕ × Key)) (p : List ℕ)
    (out : List (ℕ × ℕ)) (u : Used) :
    (fill_slots slots (p, out, u)).1.length ≤ p.length := by
  induction slots generalizing p out u with
  | nil => simp [fill_slots]
  | cons s rest ih =>
    obtain ⟨tslot, capv, key⟩ := s
    simp only [fill_slots]
    refine le_trans (ih _ _ _) ?_
    rw [place_cases_length]
    omega

theorem fill_slots_out_mem (slots : List (ℕ × ℕ × Key)) (p : List ℕ)
    (out : List (ℕ × ℕ)) (u : Used) (B : ℕ) (hB : ∀ s ∈ slots, B ≤ s.1) :
    ∀ x ∈ (fill_slots slots (p, out, u)).2.1, x ∈ out ∨ B ≤ x.2 := by
  induction slots generalizing p out u with
  | nil => intro x hx; exact Or.inl hx
  | cons s rest ih =>
    obtain ⟨tslot, capv, key⟩ := s
    intro x hx
    simp only [fill_slots] at hx
    rcases ih _ _ _ (fun s hs => hB s (List.mem_cons_of_mem _ hs)) x hx with h | h
    · rcases place_cases_out_mem _ _ _ _ x h with h' | h'
      · exact Or.inl h'
      · exact Or.inr (h' ▸ hB _ (List.mem_cons_self _ _))
    · exact Or.inr h

theorem fill_slots_lget_of_not_mem (slots : List (ℕ × ℕ × Key)) (p : List ℕ)
    (out : List (ℕ × ℕ)) (u : Used) (k : Key) (hk : ∀ s ∈ slots, s.2.2 ≠ k) :
    lget (fill_slots slots (p, out, u)).2.2 k = lget u k := by
  induction slots generalizing p out u with
  | nil => simp [fill_slots]
  | cons s rest ih =>
    obtain ⟨tslot, capv, key⟩ := s
    simp only [fill_slots]
    rw [ih _ _ _ (fun s hs => hk s (List.mem_cons_of_mem _ hs))]
    exact lget_lset_ne _ _ _ _ (hk _ (List.mem_cons_self _ _))

theorem fill_slots_lget_le (slots : List (ℕ × ℕ × Key)) (p : List ℕ)
    (out : List (ℕ × ℕ)) (u : Used)
    (hdist : slots.Pairwise (fun a b => a.2.2 ≠ b.2.2)) :
    ∀ s ∈ slots, lget (fill_slots slots (p, out, u)).2.2 s.2.2 ≤
      lget u s.2.2 + s.2.1 := by
  induction slots generalizing p out u with
  | nil => intro s hs; cases hs
  | cons s0 rest ih =>
    obtain ⟨tslot, capv, key⟩ := s0
    intro s hs
    rcases List.mem_cons.1 hs with rfl | hs'
    · simp only [fill_slots]
      rw [fill_slots_lget_of_not_mem _ _ _ _ _
        (fun b hb => (List.rel_of_pairwise_cons hdist hb).symm)]
      rw [lget_lset_self]
      omega
    · simp only [fill_slots]
      have hne : key ≠ s.2.2 := List.rel_of_pairwise_cons hdist hs'
      have := ih (place_cases (min capv p.length) tslot (p, out)).1
        (place_cases (min capv p.length) tslot (p, out)).2
        (lset u key (lget u key + min capv p.length))
        (List.pairwise_cons.1 hdist).2 s hs'
      rwa [lget_lset_ne _ _ _ _ hne] at this

theorem roll_waves_perm (ws : List (ℕ × ℕ)) (day_start w d : ℕ) (subqs : List ℤ)
    (p : List ℕ) (out : List (ℕ × ℕ)) (u : Used) :
    ((roll_waves ws day_start w d subqs (p, out, u)).2.1.map Prod.fst ++
      (roll_waves ws day_start w d subqs (p, out, u)).1).Perm
      (out.map Prod.fst ++ p) := by
  induction ws generalizing p out u with
  | nil => simp [roll_waves]
  | cons s rest ih =>
    obtain ⟨i, h⟩ := s
    simp only [roll_waves]
    exact (ih _ _ _).trans (place_cases_perm _ _ p out)

theorem roll_waves_length_le (ws : List (ℕ × ℕ)) (day_start w d : ℕ)
    (subqs : List ℤ) (p : List ℕ) (out : List (ℕ × ℕ)) (u : Used) :
    (roll_waves ws day_start w d subqs (p, out, u)).1.length ≤ p.length := by
  induction ws generalizing p out u with
  | nil => simp [roll_waves]
  | cons s rest ih =>
    obtain ⟨i, h⟩ := s
    simp only [roll_waves]
    refine le_trans (ih _ _ _) ?_
    rw [place_cases_length]
    omega

theorem roll_waves_out_mem (ws : List (ℕ × ℕ)) (day_start w d : ℕ)
    (subqs : List ℤ) (p : List ℕ) (out : List (ℕ × ℕ)) (u : Used) :
    ∀ x ∈ (roll_waves ws day_start w d subqs (p, out, u)).2.1,
      x ∈ out ∨ day_start ≤ x.2 := by
  induction ws generalizing p out u with
  | nil => intro x hx; exact Or.inl hx
  | cons s rest ih =>
    obtain ⟨i, h⟩ := s
    intro x hx
    simp only [roll_waves] at hx
    rcases ih _ _ _ x hx with h' | h'
    · rcases place_cases_out_mem _ _ _ _ x h' with h'' | h''
      · exact Or.inl h''
      · exact Or.inr (by omega)
    · exact Or.inr h'

theorem roll_waves_lget_ne (ws : List (ℕ × ℕ)) (day_start w d : ℕ)
    (subqs : List ℤ) (p : List ℕ) (out : List (ℕ × ℕ)) (u : Used) (k : Key)
    (hk : k.1 ≠ w ∨ k.2.1 ≠ d) :
    lget (roll_waves ws day_start w d subqs (p, out, u)).2.2 k = lget u k := by
  induction ws generalizing p out u with
  | nil => simp [roll_waves]
  | cons s rest ih =>
    obtain ⟨i, h⟩ := s
    simp only [roll_waves]
    rw [ih]
    refine lget_lset_ne _ _ _ _ ?_
    rintro rfl
    rcases hk with h' | h' <;> exact h' rfl

theorem roll_waves_support (ws : List (ℕ × ℕ)) (day_start w d : ℕ)
    (subqs : List ℤ) (p : List ℕ) (out : List (ℕ × ℕ)) (u : Used) (k : Key)
    (h : lget (roll_waves ws day_start w d subqs (p, out, u)).2.2 k ≠ 0) :
    lget u k ≠ 0 ∨ (k.1 = w ∧ k.2.1 = d) := by
  by_cases hk : k.1 = w ∧ k.2.1 = d
  · exact Or.inr hk
  · left
    rw [roll_waves_lget_ne] at h
    · exact h
    · rcases not_and_or.1 hk with h' | h'
      · exact Or.inl h'
      · exact Or.inr h'

theorem le_next_8am (t : ℕ) : t ≤ next_8am_at_or_after t := by
  simp only [next_8am_at_or_after]
  have h24 : t % 24 < 24 := Nat.mod_lt _ (by norm_num)
  have : t % 24 ≤ t := Nat.mod_le _ _
  split <;> omega

theorem day_of_key (t : ℕ) : 7 * (t / 168) + (dow_1_to_7 t - 1) = t / 24 := by
  unfold dow_1_to_7
  have h1 : t / 168 = t / 24 / 7 := by
    rw [Nat.div_div_eq_div_mul]
  rw [h1]
  omega

theorem day_start_div (base8 off : ℕ) : (base8 + 24 * off) / 24 = base8 / 24 + off :=
  Nat.add_mul_div_left _ _ (by norm_num)

theorem day_quota_adjusted_ge (cap : ResourceType → ℕ → ℕ) (d backlog dse : ℕ) :
    50 ≤ day_quota_adjusted cap d backlog dse := by
  simp only [day_quota_adjusted]
  split <;> split <;> omega

theorem day_quota_adjusted_le (cap : ResourceType → ℕ → ℕ) (d backlog dse : ℕ) :
    day_quota_adjusted cap d backlog dse ≤ 72 := by
  simp only [day_quota_adjusted]
  split <;> split <;> omega

theorem pyInt_nonneg {x : ℚ} (hx : 0 ≤ x) : 0 ≤ pyInt x := by
  unfold pyInt
  rw [if_pos hx]
  exact Int.floor_nonneg.2 hx

theorem pyInt_le_self {x : ℚ} (hx : 0 ≤ x) : (pyInt x : ℚ) ≤ x := by
  unfold pyInt
  rw [if_pos hx]
  exact Int.floor_le x

theorem pyInt_lt_add_one {x : ℚ} (hx : 0 ≤ x) : x < (pyInt x : ℚ) + 1 := by
  unfold pyInt
  rw [if_pos hx]
  exact Int.lt_floor_add_one x

theorem split_quota_head_pos (q : ℕ) (hq : 50 ≤ q) :
    1 ≤ (split_quota q wave_frac).getD 0 0 := by
  have hqq : (18 : ℚ) ≤ 36 / 100 * (q : ℚ) := by
    have : (50 : ℚ) ≤ (q : ℚ) := by exact_mod_cast hq
    nlinarith
  have hfl : 1 ≤ pyInt (36 / 100 * (q : ℚ)) := by
    unfold pyInt
    rw [if_pos (by linarith)]
    exact Int.le_floor.2 (by push_cast; linarith)
  unfold split_quota wave_frac
  simp only [List.map_cons, List.map_nil, List.length_cons, List.length_nil]
  split
  · simp only [List.range_succ_eq_map, List.map_cons, List.getD_cons_zero]
    split <;> omega
  · simpa using hfl

theorem roll_waves_cons (i h : ℕ) (rest : List (ℕ × ℕ)) (day_start w d : ℕ)
    (subqs : List ℤ) (p : List ℕ) (out : List (ℕ × ℕ)) (u : Used) :
    roll_waves ((i, h) :: rest) day_start w d subqs (p, out, u) =
      roll_waves rest day_start w d subqs
        ((place_cases
            (min ((max 0 (subqs.getD i 0 -
              (lget u (w, d, (day_start + h) % 24) : ℤ))).toNat) p.length)
            (day_start + h) (p, out)).1,
         (place_cases
            (min ((max 0 (subqs.getD i 0 -
              (lget u (w, d, (day_start + h) % 24) : ℤ))).toNat) p.length)
            (day_start + h) (p, out)).2,
         lset u (w, d, (day_start + h) % 24)
           (lget u (w, d, (day_start + h) % 24) +
            min ((max 0 (subqs.getD i 0 -
              (lget u (w, d, (day_start + h) % 24) : ℤ))).toNat) p.length)) := rfl

theorem roll_waves_progress (day_start w d : ℕ) (subqs : List ℤ) (p : List ℕ)
    (out : List (ℕ × ℕ)) (u : Used) (hp : p ≠ [])
    (hfresh : lget u (w, d, (day_start + 0) % 24) = 0)
    (hsub : 1 ≤ subqs.getD 0 0) :
    (roll_waves waves.enum day_start w d subqs (p, out, u)).1.length < p.length := by
  have hwe : waves.enum = (0, 0) :: [(1, 2), (2, 4), (3, 6), (4, 8), (5, 12)] := by
    simp [waves, List.enum]
  rw [hwe, roll_waves_cons, hfresh]
  have hlen : 0 < p.length := List.length_pos.2 hp
  refine lt_of_le_of_lt (roll_waves_length_le _ _ _ _ _ _ _ _) ?_
  rw [place_cases_length]
  omega

theorem roll_forward_spec (cap : ResourceType → ℕ → ℕ) (rc base8 : ℕ) :
    ∀ fuel off p out u out' u',
      roll_forward cap rc base8 fuel off p out u = some (out', u') →
      (out'.map Prod.fst).Perm (out.map Prod.fst ++ p) ∧
      (∀ x ∈ out', x ∈ out ∨ base8 ≤ x.2) ∧
      (∀ k : Key, dayIdx k < base8 / 24 + off → lget u' k = lget u k) := by
  intro fuel
  induction fuel with
  | zero =>
    intro off p out u out' u' h
    simp only [roll_forward] at h
    split at h
    · rename_i hemp
      obtain ⟨rfl, rfl⟩ := Prod.mk.injEq _ _ _ _ ▸ Option.some_inj.1 h
      refine ⟨by simp [List.isEmpty_iff.1 hemp], fun x hx => Or.inl hx, fun k _ => rfl⟩
    · exact absurd h (by simp)
  | succ fuel ih =>
    intro off p out u out' u' h
    simp only [roll_forward] at h
    split at h
    · rename_i hemp
      obtain ⟨rfl, rfl⟩ := Prod.mk.injEq _ _ _ _ ▸ Option.some_inj.1 h
      refine ⟨by simp [List.isEmpty_iff.1 hemp], fun x hx => Or.inl hx, fun k _ => rfl⟩
    · obtain ⟨hperm, hmem, hlget⟩ := ih _ _ _ _ _ _ h
      set day_start := base8 + 24 * off with hds
      set w := day_start / 168 with hw
      set d := dow_1_to_7 day_start with hd
      set subqs := split_quota
        (day_quota_adjusted cap d (p.length + rc) (base8 / 24 + off)) wave_frac
        with hsq
      have hrw := roll_waves_perm waves.enum day_start w d subqs p out u
      refine ⟨hperm.trans hrw, ?_, ?_⟩
      · intro x hx
        rcases hmem x hx with h' | h'
        · rcases roll_waves_out_mem _ _ _ _ _ _ _ _ x h' with h'' | h''
          · exact Or.inl h''
          · exact Or.inr (le_trans (by omega) h'')
        · exact Or.inr h'
      · intro k hk
        have hday : dayIdx k < base8 / 24 + (off + 1) := by omega
        rw [hlget k hday]
        refine roll_waves_lget_ne _ _ _ _ _ _ _ _ _ ?_
        by_contra hcon
        push_neg at hcon
        obtain ⟨h1, h2⟩ := hcon
        have : dayIdx k = base8 / 24 + off := by
          have := day_of_key day_start
          have hdiv : day_start / 24 = base8 / 24 + off := day_start_div base8 off
          unfold dayIdx
          rw [h1, h2, hd, hw]
          omega
        omega

theorem roll_forward_total (cap : ResourceType → ℕ → ℕ) (rc base8 : ℕ) :
    ∀ fuel D off p out u,
      (∀ k : Key, lget u k ≠ 0 → dayIdx k < D) →
      D - (base8 / 24 + off) + p.length + 1 ≤ fuel →
      (roll_forward cap rc base8 fuel off p out u).isSome = true := by
  intro fuel
  induction fuel with
  | zero => intro D off p out u _ hfuel; omega
  | succ fuel ih =>
    intro D off p out u hsupp hfuel
    simp only [roll_forward]
    split
    · rfl
    · rename_i hemp
      have hp : p ≠ [] := fun hc => by simp [hc] at hemp
      set n := base8 / 24 + off with hn
      set day_start := base8 + 24 * off with hds
      set w := day_start / 168 with hw
      set d := dow_1_to_7 day_start with hd
      set quota := day_quota_adjusted cap d (p.length + rc) (base8 / 24 + off)
        with hq
      set subqs := split_quota quota wave_frac with hsq
      set st := roll_waves waves.enum day_start w d subqs (p, out, u) with hst
      have hdayk : ∀ h' : ℕ, dayIdx (w, d, h') = n := by
        intro h'
        unfold dayIdx
        have := day_of_key day_start
        have hdiv : day_start / 24 = base8 / 24 + off := day_start_div base8 off
        simp only [hw, hd]
        omega
      have hsupp' : ∀ k : Key, lget st.2.2 k ≠ 0 → dayIdx k < max D (n + 1) := by
        intro k hk
        rw [hst] at hk
        rcases roll_waves_support _ _ _ _ _ _ _ _ k hk with h' | h'
        · exact lt_of_lt_of_le (hsupp k h') (le_max_left _ _)
        · have : dayIdx k = n := by
            obtain ⟨w', d', h''⟩ := k
            obtain ⟨e1, e2⟩ := h'
            simp only at e1 e2
            subst e1; subst e2
            exact hdayk _
          omega
      rcases lt_or_le n D with hcase | hcase
      · -- a day that may still be partially blocked by ledger entries
        have hlen : st.1.length ≤ p.length := by
          rw [hst]; exact roll_waves_length_le _ _ _ _ _ _ _ _
        refine ih (max D (n + 1)) (off + 1) st.1 st.2.1 st.2.2 hsupp' ?_
        have hmax : max D (n + 1) = D := by omega
        rw [hmax]
        omega
      · -- fresh day: every ledger key of this day is 0, so at least one case
        -- is placed and the pending queue strictly shrinks
        have hfresh : lget u (w, d, (day_start + 0) % 24) = 0 := by
          by_contra hc
          have := hsupp _ hc
          rw [hdayk] at this
          omega
        have hquota : 50 ≤ quota := day_quota_adjusted_ge _ _ _ _
        have hsub : 1 ≤ subqs.getD 0 0 := split_quota_head_pos _ hquota
        have hprog : st.1.length < p.length := by
          rw [hst]
          exact roll_waves_progress _ _ _ _ _ _ _ hp hfresh hsub
        refine ih (max D (n + 1)) (off + 1) st.1 st.2.1 st.2.2 hsupp' ?_
        have hmax : max D (n + 1) = n + 1 := by omega
        rw [hmax]
        omega

theorem getD_nonneg : ∀ (l : List ℤ) (i : ℕ), (∀ x ∈ l, 0 ≤ x) → 0 ≤ l.getD i 0
  | [], i, _ => by simp [List.getD]
  | a :: l, 0, h => h a (List.mem_cons_self _ _)
  | a :: l, i + 1, h =>
    getD_nonneg l i (fun x hx => h x (List.mem_cons_of_mem _ hx))

theorem split_quota_mem_nonneg (q : ℕ) :
    ∀ x ∈ split_quota q wave_frac, 0 ≤ x := by
  intro x hx
  have hq : (0 : ℚ) ≤ (q : ℚ) := by positivity
  have hnn : ∀ y ∈ (wave_frac.map (fun f => f * (q : ℚ))).map pyInt, 0 ≤ y := by
    intro y hy
    simp only [wave_frac, List.map_cons, List.map_nil, List.mem_cons,
      List.mem_singleton] at hy
    rcases hy with rfl | rfl | rfl | rfl | rfl | rfl | hy
    · exact pyInt_nonneg (by positivity)
    · exact pyInt_nonneg (by positivity)
    · exact pyInt_nonneg (by positivity)
    · exact pyInt_nonneg (by positivity)
    · exact pyInt_nonneg (by positivity)
    · exact pyInt_nonneg (by positivity)
    · simp at hy
  unfold split_quota at hx
  simp only at hx
  split at hx
  · rcases List.mem_map.1 hx with ⟨i, _, rfl⟩
    have h1 : 0 ≤ ((wave_frac.map (fun f => f * (q : ℚ))).map pyInt).getD i 0 :=
      getD_nonneg _ _ hnn
    split <;> omega
  · exact hnn x hx

theorem split_quota_getD_nonneg (q idx : ℕ) :
    0 ≤ (split_quota q wave_frac).getD idx 0 :=
  getD_nonneg _ _ (split_quota_mem_nonneg q)

theorem next_8am_mod (t : ℕ) : next_8am_at_or_after t % 24 = 8 := by
  simp only [next_8am_at_or_after]
  have h1 : (t - t % 24) % 24 = 0 := by omega
  split <;> omega

theorem dow_ne_next (t : ℕ) : dow_1_to_7 t ≠ dow_1_to_7 (t + 24) := by
  unfold dow_1_to_7
  have h1 : (t + 24) / 24 = t / 24 + 1 := by omega
  rw [h1]
  intro h
  omega

theorem day_slots_eq (cap : ResourceType → ℕ → ℕ) (used : Used)
    (base8 backlog off : ℕ) :
    day_slots cap used base8 backlog off = (List.range 6).map (fun idx =>
      (base8 + 24 * off + waves.getD idx 0,
       (max 0 (horizon_subq cap base8 backlog off idx -
         (lget used (horizon_key base8 off idx) : ℤ))).toNat,
       horizon_key base8 off idx)) := by
  simp only [day_slots, horizon_key, horizon_subq, waves]
  rfl

theorem horizon_key_dayIdx (base8 off idx : ℕ) :
    dayIdx (horizon_key base8 off idx) = base8 / 24 + off := by
  unfold horizon_key dayIdx
  have h1 := day_of_key (base8 + 24 * off)
  have h2 := day_start_div base8 off
  simp only
  omega

theorem day_slots_time_ge (cap : ResourceType → ℕ → ℕ) (used : Used)
    (base8 backlog off : ℕ) :
    ∀ s ∈ day_slots cap used base8 backlog off, base8 ≤ s.1 := by
  rw [day_slots_eq]
  intro s hs
  rcases List.mem_map.1 hs with ⟨i, _, rfl⟩
  simp only
  omega

theorem horizon_key_hour (base8 off idx : ℕ) (h8 : base8 % 24 = 8)
    (hidx : idx < 6) :
    (horizon_key base8 off idx).2.2 = 8 + waves.getD idx 0 := by
  unfold horizon_key
  simp only
  have hw : waves.getD idx 0 ≤ 12 := by
    interval_cases idx <;> simp [waves]
  omega

theorem horizon_key_inj (base8 : ℕ) (h8 : base8 % 24 = 8) :
    ∀ off off' idx idx', off < 2 → off' < 2 → idx < 6 → idx' < 6 →
      horizon_key base8 off idx = horizon_key base8 off' idx' →
      off = off' ∧ idx = idx' := by
  intro off off' idx idx' hoff hoff' hidx hidx' heq
  have hd : (horizon_key base8 off idx).2.1 = (horizon_key base8 off' idx').2.1 := by
    rw [heq]
  have hh : (horizon_key base8 off idx).2.2 = (horizon_key base8 off' idx').2.2 := by
    rw [heq]
  rw [horizon_key_hour base8 off idx h8 hidx,
    horizon_key_hour base8 off' idx' h8 hidx'] at hh
  have hoo : off = off' := by
    by_contra hne
    have h01 : (off = 0 ∧ off' = 1) ∨ (off = 1 ∧ off' = 0) := by omega
    unfold horizon_key at hd
    simp only at hd
    rcases h01 with ⟨rfl, rfl⟩ | ⟨rfl, rfl⟩
    · exact dow_ne_next (base8 + 24 * 0) (by simpa using hd)
    · exact dow_ne_next (base8 + 24 * 0) (by simpa using hd.symm)
  refine ⟨hoo, ?_⟩
  have : waves.getD idx 0 = waves.getD idx' 0 := by omega
  interval_cases idx <;> interval_cases idx' <;> simp_all [waves]

theorem fill_slots_support (slots : List (ℕ × ℕ × Key)) (p : List ℕ)
    (out : List (ℕ × ℕ)) (u : Used) (k : Key)
    (h : lget (fill_slots slots (p, out, u)).2.2 k ≠ 0) :
    lget u k ≠ 0 ∨ ∃ s ∈ slots, s.2.2 = k := by
  induction slots generalizing p out u with
  | nil => exact Or.inl h
  | cons s0 rest ih =>
    obtain ⟨tslot, capv, key⟩ := s0
    simp only [fill_slots] at h
    rcases ih _ _ _ h with h' | ⟨s, hs, rfl⟩
    · by_cases hk : key = k
      · exact Or.inr ⟨(tslot, capv, key), List.mem_cons_self _ _, hk⟩
      · rw [lget_lset_ne _ _ _ _ hk] at h'
        exact Or.inl h'
    · exact Or.inr ⟨s, List.mem_cons_of_mem _ hs, rfl⟩

theorem day_slots_pairwise (cap : ResourceType → ℕ → ℕ) (used : Used)
    (base8 backlog off : ℕ) (h8 : base8 % 24 = 8) (hoff : off < 2) :
    (day_slots cap used base8 backlog off).Pairwise (fun a b => a.2.2 ≠ b.2.2) := by
  rw [day_slots_eq, List.pairwise_map]
  refine List.Pairwise.imp_of_mem ?_ (List.pairwise_lt_range 6)
  intro i j hi hj hlt
  simp only
  intro heq
  have := horizon_key_inj base8 h8 off off i j hoff hoff
    (List.mem_range.1 hi) (List.mem_range.1 hj) heq
  omega

theorem day_slots_key_ne (cap : ResourceType → ℕ → ℕ) (u u' : Used)
    (base8 backlog backlog' off off' : ℕ) (h8 : base8 % 24 = 8)
    (hoff : off < 2) (hoff' : off' < 2) (hne : off ≠ off') :
    ∀ s ∈ day_slots cap u base8 backlog off,
      ∀ s' ∈ day_slots cap u' base8 backlog' off', s.2.2 ≠ s'.2.2 := by
  rw [day_slots_eq, day_slots_eq]
  intro s hs s' hs'
  rcases List.mem_map.1 hs with ⟨i, hi, rfl⟩
  rcases List.mem_map.1 hs' with ⟨j, hj, rfl⟩
  simp only
  intro heq
  have := horizon_key_inj base8 h8 off off' i j hoff hoff'
    (List.mem_range.1 hi) (List.mem_range.1 hj) heq
  omega

theorem fill_slots_lget_of_not_mem_st (slots : List (ℕ × ℕ × Key))
    (st : List ℕ × List (ℕ × ℕ) × Used) (k : Key)
    (hk : ∀ s ∈ slots, s.2.2 ≠ k) :
    lget (fill_slots slots st).2.2 k = lget st.2.2 k := by
  obtain ⟨p, o, u⟩ := st
  exact fill_slots_lget_of_not_mem slots p o u k hk

theorem fill_slots_lget_le_st (slots : List (ℕ × ℕ × Key))
    (st : List ℕ × List (ℕ × ℕ) × Used)
    (hdist : slots.Pairwise (fun a b => a.2.2 ≠ b.2.2)) :
    ∀ s ∈ slots, lget (fill_slots slots st).2.2 s.2.2 ≤
      lget st.2.2 s.2.2 + s.2.1 := by
  obtain ⟨p, o, u⟩ := st
  exact fill_slots_lget_le slots p o u hdist

/-- `orPlan` in the non-empty case unfolds to the horizon fill followed by
the roll-forward loop. -/
theorem orPlan_eq_of_ne (cap : ResourceType → ℕ → ℕ) (used : Used)
    (toPlan toReplan : List ℕ) (t fuel : ℕ) (hne : toPlan ≠ []) :
    orPlan cap used toPlan toReplan t fuel =
      roll_forward cap toReplan.length (next_8am_at_or_after (t + 24)) fuel 2
        (fill_slots
          (day_slots cap used (next_8am_at_or_after (t + 24))
            (toPlan.length + toReplan.length) 1)
          (fill_slots
            (day_slots cap used (next_8am_at_or_after (t + 24))
              (toPlan.length + toReplan.length) 0)
            (toPlan, [], used))).1
        (fill_slots
          (day_slots cap used (next_8am_at_or_after (t + 24))
            (toPlan.length + toReplan.length) 1)
          (fill_slots
            (day_slots cap used (next_8am_at_or_after (t + 24))
              (toPlan.length + toReplan.length) 0)
            (toPlan, [], used))).2.1
        (fill_slots
          (day_slots cap used (next_8am_at_or_after (t + 24))
            (toPlan.length + toReplan.length) 1)
          (fill_slots
            (day_slots cap used (next_8am_at_or_after (t + 24))
              (toPlan.length + toReplan.length) 0)
            (toPlan, [], used))).2.2 := by
  simp only [orPlan]
  rw [if_neg (by simpa using hne)]

/-- Any successful `ORPlanner.plan` call returns exactly the cases of
`cases_to_plan` (as a multiset) and only timestamps at or after the first
eligible 08:00 slot. -/
theorem orPlan_spec (cap : ResourceType → ℕ → ℕ) (used : Used)
    (toPlan toReplan : List ℕ) (t fuel : ℕ) (out : List (ℕ × ℕ)) (u' : Used)
    (h : orPlan cap used toPlan toReplan t fuel = some (out, u')) :
    (out.map Prod.fst).Perm toPlan ∧
    ∀ x ∈ out, t + 24 ≤ x.2 := by
  by_cases hne : toPlan = []
  · subst hne
    simp only [orPlan, List.isEmpty_nil, if_pos] at h
    obtain ⟨rfl, rfl⟩ := Prod.mk.injEq _ _ _ _ ▸ Option.some_inj.1 h
    exact ⟨by simp, by simp⟩
  · rw [orPlan_eq_of_ne cap used toPlan toReplan t fuel hne] at h
    set base8 := next_8am_at_or_after (t + 24) with hb8
    set backlog := toPlan.length + toReplan.length with hbl
    set slots0 := day_slots cap used base8 backlog 0 with hs0
    set slots1 := day_slots cap used base8 backlog 1 with hs1
    set st1 := fill_slots slots0 (toPlan, [], used) with hst1
    set st2 := fill_slots slots1 st1 with hst2
    obtain ⟨hperm, hmem, _⟩ := roll_forward_spec cap toReplan.length base8
      fuel 2 st2.1 st2.2.1 st2.2.2 out u' h
    have ht24 : t + 24 ≤ base8 := le_next_8am _
    have hp1 := fill_slots_perm slots0 toPlan [] used
    have hp2 : (st2.2.1.map Prod.fst ++ st2.1).Perm
        (st1.2.1.map Prod.fst ++ st1.1) := by
      rw [hst2, hst1]
      exact fill_slots_perm slots1 _ _ _
    constructor
    · refine hperm.trans (hp2.trans ?_)
      rw [hst1]
      simpa using hp1
    · intro x hx
      have hm1 := fill_slots_out_mem slots0 toPlan [] used base8
        (day_slots_time_ge _ _ _ _ _)
      have hm2 : ∀ y ∈ st2.2.1, y ∈ st1.2.1 ∨ base8 ≤ y.2 := by
        rw [hst2, hst1]
        exact fill_slots_out_mem slots1 _ _ _ base8
          (day_slots_time_ge _ _ _ _ _)
      rcases hmem x hx with h' | h'
      · rcases hm2 x h' with h'' | h''
        · rcases hm1 x (by rw [hst1] at h''; exact h'') with h3 | h3
          · simp at h3
          · omega
        · omega
      · omega

/-- With enough fuel (one day per pre-existing ledger day plus one day per
pending case), `ORPlanner.plan`'s roll-forward always empties the queue. -/
theorem orPlan_total (cap : ResourceType → ℕ → ℕ) (used : Used)
    (toPlan toReplan : List ℕ) (t fuel D : ℕ)
    (hsupp : ∀ k : Key, lget used k ≠ 0 → dayIdx k < D)
    (hfuel : D + toPlan.length + 1 ≤ fuel) :
    (orPlan cap used toPlan toReplan t fuel).isSome = true := by
  by_cases hne : toPlan = []
  · subst hne
    simp [orPlan]
  · rw [orPlan_eq_of_ne cap used toPlan toReplan t fuel hne]
    set base8 := next_8am_at_or_after (t + 24) with hb8
    set backlog := toPlan.length + toReplan.length with hbl
    set slots0 := day_slots cap used base8 backlog 0 with hs0
    set slots1 := day_slots cap used base8 backlog 1 with hs1
    set st1 := fill_slots slots0 (toPlan, [], used) with hst1
    set st2 := fill_slots slots1 st1 with hst2
    have hkey : ∀ off : ℕ, off < 2 → ∀ s ∈ day_slots cap used base8 backlog off,
        dayIdx s.2.2 = base8 / 24 + off := by
      intro off _ s hs
      rw [day_slots_eq] at hs
      rcases List.mem_map.1 hs with ⟨i, _, rfl⟩
      exact horizon_key_dayIdx _ _ _
    have hsupp2 : ∀ k : Key, lget st2.2.2 k ≠ 0 →
        dayIdx k < max D (base8 / 24 + 2) := by
      intro k hk
      have h2 : lget st1.2.2 k ≠ 0 ∨ ∃ s ∈ slots1, s.2.2 = k := by
        rw [hst2] at hk
        exact fill_slots_support slots1 st1.1 st1.2.1 st1.2.2 k hk
      rcases h2 with h2 | ⟨s, hs, rfl⟩
      · have h1 : lget used k ≠ 0 ∨ ∃ s ∈ slots0, s.2.2 = k := by
          rw [hst1] at h2
          exact fill_slots_support slots0 toPlan [] used k h2
        rcases h1 with h1 | ⟨s, hs, rfl⟩
        · exact lt_of_lt_of_le (hsupp k h1) (le_max_left _ _)
        · have := hkey 0 (by norm_num) s hs
          omega
      · have := hkey 1 (by norm_num) s hs
        omega
    have hlen2 : st2.1.length ≤ toPlan.length := by
      have h1 : st1.1.length ≤ toPlan.length := by
        rw [hst1]; exact fill_slots_length_le _ _ _ _
      have h2 : st2.1.length ≤ st1.1.length := by
        rw [hst2]
        exact fill_slots_length_le slots1 st1.1 st1.2.1 st1.2.2
      omega
    refine roll_forward_total cap toReplan.length base8 fuel
      (max D (base8 / 24 + 2)) 2 st2.1 st2.2.1 st2.2.2 hsupp2 ?_
    omega

/-- After one successful `ORPlanner.plan` call, the ledger count of every
two-day-horizon bucket is bounded by the larger of its previous count and
that bucket's wave sub-quota (the precomputed slot capacity subtracts the
ledger before any placement). -/
theorem orPlan_horizon_bound (cap : ResourceType → ℕ → ℕ) (used : Used)
    (toPlan toReplan : List ℕ) (t fuel : ℕ) (out : List (ℕ × ℕ)) (u' : Used)
    (h : orPlan cap used toPlan toReplan t fuel = some (out, u'))
    (off idx : ℕ) (hoff : off < 2) (hidx : idx < 6) :
    (lget u' (horizon_key (next_8am_at_or_after (t + 24)) off idx) : ℤ) ≤
      max (lget used (horizon_key (next_8am_at_or_after (t + 24)) off idx) : ℤ)
        (horizon_subq cap (next_8am_at_or_after (t + 24))
          (toPlan.length + toReplan.length) off idx) := by
  by_cases hne : toPlan = []
  · subst hne
    simp only [orPlan, List.isEmpty_nil, if_pos] at h
    obtain ⟨rfl, rfl⟩ := Prod.mk.injEq _ _ _ _ ▸ Option.some_inj.1 h
    exact le_max_left _ _
  · rw [orPlan_eq_of_ne cap used toPlan toReplan t fuel hne] at h
    set base8 := next_8am_at_or_after (t + 24) with hb8
    set backlog := toPlan.length + toReplan.length with hbl
    set k := horizon_key base8 off idx with hkdef
    have h8 : base8 % 24 = 8 := next_8am_mod _
    set slots0 := day_slots cap used base8 backlog 0 with hs0
    set slots1 := day_slots cap used base8 backlog 1 with hs1
    set st1 := fill_slots slots0 (toPlan, [], used) with hst1
    set st2 := fill_slots slots1 st1 with hst2
    obtain ⟨_, _, hlg⟩ := roll_forward_spec cap toReplan.length base8
      fuel 2 st2.1 st2.2.1 st2.2.2 out u' h
    have hday : dayIdx k = base8 / 24 + off := horizon_key_dayIdx _ _ _
    have hpres : lget u' k = lget st2.2.2 k := hlg k (by omega)
    have hmem : (base8 + 24 * off + waves.getD idx 0,
        (max 0 (horizon_subq cap base8 backlog off idx -
          (lget used k : ℤ))).toNat, k) ∈ day_slots cap used base8 backlog off := by
      rw [day_slots_eq]
      exact List.mem_map.2 ⟨idx, List.mem_range.2 hidx, rfl⟩
    interval_cases off
    · -- day-1 bucket: bounded by the day-1 fill, untouched by the day-2 fill
      have hb : lget st1.2.2 k ≤ lget used k +
          (max 0 (horizon_subq cap base8 backlog 0 idx - (lget used k : ℤ))).toNat := by
        have := fill_slots_lget_le slots0 toPlan [] used
          (day_slots_pairwise cap used base8 backlog 0 h8 (by norm_num))
          _ hmem
        exact this
      have huntouched : lget st2.2.2 k = lget st1.2.2 k := by
        rw [hst2]
        refine fill_slots_lget_of_not_mem_st slots1 st1 k ?_
        intro s hs
        exact day_slots_key_ne cap used used base8 backlog backlog 1 0 h8
          (by norm_num) (by norm_num) (by norm_num) s hs _ hmem
      rw [hpres, huntouched]
      omega
    · -- day-2 bucket: untouched by the day-1 fill, bounded by the day-2 fill
      have huntouched : lget st1.2.2 k = lget used k := by
        rw [hst1]
        refine fill_slots_lget_of_not_mem slots0 toPlan [] used k ?_
        intro s hs
        exact day_slots_key_ne cap used used base8 backlog backlog 0 1 h8
          (by norm_num) (by norm_num) (by norm_num) s hs _ hmem
      have hb : lget st2.2.2 k ≤ lget st1.2.2 k +
          (max 0 (horizon_subq cap base8 backlog 1 idx - (lget used k : ℤ))).toNat := by
        rw [hst2]
        exact fill_slots_lget_le_st slots1 st1
          (day_slots_pairwise cap used base8 backlog 1 h8 (by norm_num))
          _ hmem
      rw [hpres]
      omega

theorem rl_close_loop_scheduled (s : RLState) :
    (rl_close_loop s).scheduled = s.scheduled := by
  unfold rl_close_loop
  cases s.last_state <;> cases s.last_action <;> rfl

theorem rl_close_loop_last_level (s : RLState) :
    (rl_close_loop s).last_level = s.last_level := by
  unfold rl_close_loop
  cases s.last_state <;> cases s.last_action <;> rfl

theorem rl_close_loop_max_or (s : RLState) :
    (rl_close_loop s).max_or = s.max_or := by
  unfold rl_close_loop
  cases s.last_state <;> cases s.last_action <;> rfl

theorem rl_plan_loop_mem (l : List ℕ) :
    ∀ c1 c2 s1 s2, ∀ x ∈ rl_plan_loop l c1 c2 s1 s2, x.2 = s1 ∨ x.2 = s2 := by
  induction l with
  | nil => intro c1 c2 s1 s2 x hx; simp [rl_plan_loop] at hx
  | cons cid rest ih =>
    intro c1 c2 s1 s2 x hx
    simp only [rl_plan_loop] at hx
    split at hx
    · rcases List.mem_cons.1 hx with rfl | hx'
      · exact Or.inl rfl
      · exact ih _ _ _ _ x hx'
    · split at hx
      · rcases List.mem_cons.1 hx with rfl | hx'
        · exact Or.inr rfl
        · exact ih _ _ _ _ x hx'
      · simp at hx

theorem next_day_0800_two_ge (t : ℕ) : t + 24 ≤ next_day_0800 t 2 := by
  unfold next_day_0800
  have h1 : 24 * (t / 24) + t % 24 = t := Nat.div_add_mod t 24
  have h2 : t % 24 < 24 := Nat.mod_lt _ (by norm_num)
  omega

theorem rl_plan_time_ge (toPlan : List ℕ) (t : ℕ) :
    ∀ x ∈ rl_plan toPlan t, t + 24 ≤ x.2 := by
  intro x hx
  unfold rl_plan at hx
  simp only at hx
  have h2 := next_day_0800_two_ge t
  rcases rl_plan_loop_mem toPlan _ _ _ _ x hx with h | h
  · rw [h]
    split
    · exact h2
    · omega
  · omega

/-- The level emitted by `RLSubmissionPlanner.schedule` at the near-term slot
is at least any previous commitment at that slot and at least the last
committed level. -/
theorem rl_schedule_near_mono (s : RLState) (t : ℕ) (rnd : ℚ) (choice v : ℕ)
    (hv : (ResourceType.OR, rl_start_t t, v) ∈ (rl_schedule s t rnd choice).2) :
    (∀ prev, s.scheduled (rl_start_t t) = some prev → prev ≤ v) ∧
      s.last_level ≤ v := by
  unfold rl_schedule at hv
  split at hv
  · simp at hv
  · simp only [rl_close_loop_scheduled, rl_close_loop_last_level,
      rl_close_loop_max_or] at hv
    set a := if rnd < (rl_close_loop s).epsilon then choice
      else argmax_q ((rl_close_loop s).Q
        (weekday t, min 3 (s.ready_or / 5), if s.overtime ≠ 0 then 1 else 0))
      with ha
    set chosen := min s.max_or (max 2 a) with hch
    set existing := (s.scheduled (rl_start_t t)).getD s.last_level with hex
    set near := max existing (max s.last_level chosen) with hnear
    have hweek : rl_start_t t + 168 ≠ rl_start_t t := by omega
    have hvnear : v = near := by
      rcases List.mem_append.1 hv with h | h
      · split at h
        · rcases List.mem_cons.1 h with he | he
          · have := congrArg (fun q => q.2.2) he
            simpa using this
          · simp at he
        · simp at h
      · split at h <;> split at h <;>
          simp only [List.mem_singleton, List.not_mem_nil] at h
        all_goals
          exact absurd (congrArg (fun q => q.2.1) h) (by simp only []; omega)
    subst hvnear
    constructor
    · intro prev hprev
      have : existing = prev := by rw [hex, hprev]; rfl
      omega
    · omega

theorem qUpdate_fold (rs : List ℚ) :
    ∀ (q : ℚ) (n : ℕ), 0 < n ∨ rs ≠ [] →
      (rs.foldl (fun p r => qUpdate p.1 p.2 r) (q, n)).1 =
        (q * n + rs.sum) / (n + rs.length) := by
  induction rs with
  | nil =>
    intro q n hn
    rcases hn with hn | hn
    · have hne : ((n : ℚ)) ≠ 0 := by positivity
      simp only [List.foldl_nil, List.sum_nil, List.length_nil]
      field_simp
    · simp at hn
  | cons r rs ih =>
    intro q n _
    simp only [List.foldl_cons, List.sum_cons, List.length_cons]
    have hstep : qUpdate q n r = (q + (r - q) / (n + 1), n + 1) := rfl
    rw [hstep, ih _ _ (Or.inl (Nat.succ_pos n))]
    have hne : ((n : ℚ) + 1) ≠ 0 := by positivity
    have hlen : ((n : ℚ) + 1 + (rs.length : ℚ)) ≠ 0 := by positivity
    push_cast
    field_simp
    ring

theorem getD_map_lt {α β : Type} [Inhabited α] (f : α → β) (l : List α)
    (i : ℕ) (hi : i < l.length) (d : α) (d' : β) :
    (l.map f).getD i d' = f (l.getD i d) := by
  rw [List.getD_eq_getElem?_getD, List.getD_eq_getElem?_getD,
    List.getElem?_map]
  rw [List.getElem?_eq_getElem hi]
  rfl

theorem getD_range_map {β : Type} (f : ℕ → β) (n i : ℕ) (hi : i < n)
    (d' : β) : ((List.range n).map f).getD i d' = f i := by
  rw [List.getD_eq_getElem?_getD, List.getElem?_map, List.getElem?_range hi]
  rfl

theorem map_getD_range_self (l : List ℤ) :
    (List.range l.length).map (fun i => l.getD i 0) = l := by
  induction l with
  | nil => simp
  | cons a l ih =>
    simp only [List.length_cons, List.range_succ_eq_map, List.map_cons,
      List.getD_cons_zero, List.map_map]
    congr 1

theorem sum_pyInt_le (l : List ℚ) (h : ∀ x ∈ l, 0 ≤ x) :
    (((l.map pyInt).sum : ℤ) : ℚ) ≤ l.sum := by
  induction l with
  | nil => simp
  | cons x l ih =>
    simp only [List.map_cons, List.sum_cons]
    push_cast
    have h1 := pyInt_le_self (h x (List.mem_cons_self _ _))
    have h2 := ih (fun y hy => h y (List.mem_cons_of_mem _ hy))
    push_cast at h2
    linarith

theorem sum_lt_sum_pyInt_add (l : List ℚ) (h : ∀ x ∈ l, 0 ≤ x) (hne : l ≠ []) :
    l.sum < (((l.map pyInt).sum : ℤ) : ℚ) + l.length := by
  induction l with
  | nil => exact absurd rfl hne
  | cons x l ih =>
    simp only [List.map_cons, List.sum_cons, List.length_cons]
    push_cast
    have h1 := pyInt_lt_add_one (h x (List.mem_cons_self _ _))
    rcases eq_or_ne l [] with rfl | hl
    · simp only [List.sum_nil, List.map_nil, List.length_nil]
      push_cast
      linarith
    · have h2 := ih (fun y hy => h y (List.mem_cons_of_mem _ hy)) hl
      push_cast at h2
      linarith

theorem sum_map_add_split (l : List ℕ) (g h : ℕ → ℤ) :
    (l.map (fun i => g i + h i)).sum = (l.map g).sum + (l.map h).sum := by
  induction l with
  | nil => simp
  | cons a l ih => simp only [List.map_cons, List.sum_cons, ih]; ring

theorem sum_map_ite_mem (l sel : List ℕ) (hnd : l.Nodup)
    (hsub : ∃ rest, l = sel ++ rest) :
    (l.map (fun i => if i ∈ sel then (1 : ℤ) else 0)).sum = sel.length := by
  obtain ⟨rest, rfl⟩ := hsub
  rw [List.map_append, List.sum_append]
  have hdisj := List.disjoint_of_nodup_append hnd
  have h1 : sel.map (fun i => if i ∈ sel then (1 : ℤ) else 0) =
      sel.map (fun _ => (1 : ℤ)) :=
    List.map_congr_left (fun i hi => if_pos hi)
  have h2 : rest.map (fun i => if i ∈ sel then (1 : ℤ) else 0) =
      rest.map (fun _ => (0 : ℤ)) :=
    List.map_congr_left (fun i hi => if_neg (fun hc => hdisj hc hi))
  rw [h1, h2]
  simp [List.map_const]

theorem sum_ratmap_eq (fracs : List ℚ) (total : ℕ) :
    (fracs.map (fun f => f * (total : ℚ))).sum = fracs.sum * total := by
  have := List.sum_map_mul_right fracs (fun f => f) (total : ℚ)
  simpa using this

/-- Structural characterization of `_split_quota` under the claim's
hypotheses: there is a duplicate-free selection of wave indices, receiving
one leftover unit each, that (a) restores the exact total and (b) consists
of waves whose fractional remainders dominate those of all unselected
waves (ties resolved toward the earlier wave). -/
theorem split_quota_chars (total : ℕ) (fracs : List ℚ)
    (hpos : ∀ f ∈ fracs, 0 ≤ f) (hsum : fracs.sum = 1) :
    ∃ sel : List ℕ,
      (∀ i ∈ sel, i < fracs.length) ∧ sel.Nodup ∧
      (split_quota total fracs).sum = total ∧
      (∀ i, i < fracs.length → (split_quota total fracs).getD i 0 =
        pyInt (fracs.getD i 0 * total) + if i ∈ sel then 1 else 0) ∧
      (∀ i ∈ sel, ∀ j, j < fracs.length → j ∉ sel →
        remLT (fun i => fracs.getD i 0 * total -
          pyInt (fracs.getD i 0 * total)) i j) := by
  have hfne : fracs ≠ [] := by rintro rfl; simp at hsum
  set n := fracs.length with hn
  set R := fracs.map (fun f => f * (total : ℚ)) with hR
  set I := R.map pyInt with hI
  set L : ℤ := (total : ℤ) - I.sum with hL
  have hRpos : ∀ x ∈ R, 0 ≤ x := by
    intro x hx
    rcases List.mem_map.1 hx with ⟨f, hf, rfl⟩
    have := hpos f hf
    positivity
  have hRsum : R.sum = total := by
    rw [hR, sum_ratmap_eq, hsum, one_mul]
  have hRlen : R.length = n := by rw [hR, List.length_map]
  have hIlen : I.length = n := by rw [hI, List.length_map, hRlen]
  have hLnonneg : 0 ≤ L := by
    have h1 := sum_pyInt_le R hRpos
    rw [hRsum] at h1
    rw [← hI] at h1
    have h3 : I.sum ≤ (total : ℤ) := by exact_mod_cast h1
    rw [hL]
    omega
  have hLlt : L < n := by
    have h1 := sum_lt_sum_pyInt_add R hRpos (by
      rw [hR]; simpa using hfne)
    rw [hRsum, hRlen] at h1
    rw [← hI] at h1
    have h2 : (total : ℤ) < I.sum + n := by exact_mod_cast h1
    rw [hL]
    omega
  -- getD transport along the two maps
  have hRget : ∀ i, i < n → R.getD i 0 = fracs.getD i 0 * total := by
    intro i hi
    rw [hR]
    rw [getD_map_lt (fun f => f * (total : ℚ)) fracs i (hn ▸ hi) 0 0]
  have hIget : ∀ i, i < n → I.getD i 0 = pyInt (fracs.getD i 0 * total) := by
    intro i hi
    rw [hI]
    rw [getD_map_lt pyInt R i (hRlen ▸ hi) 0 0]
    rw [hRget i hi]
  have hIsum_range : ((List.range n).map (fun i => I.getD i 0)).sum = I.sum := by
    have := map_getD_range_self I
    rw [hIlen] at this
    rw [this]
  by_cases hLpos : 0 < L
  · -- leftover units are distributed
    set rem : ℕ → ℚ := fun i => R.getD i 0 - ((I.getD i 0 : ℤ) : ℚ) with hrem
    set order := (List.range R.length).insertionSort (remLT rem) with horder
    set sel := order.take L.toNat with hsel
    have hperm : order.Perm (List.range R.length) :=
      List.perm_insertionSort (remLT rem) (List.range R.length)
    have hlen_order : order.length = n := by
      rw [hperm.length_eq, List.length_range, hRlen]
    have hnd_order : order.Nodup := hperm.symm.nodup (List.nodup_range _)
    have hmem_order : ∀ i ∈ order, i < n := by
      intro i hi
      have := hperm.mem_iff.1 hi
      rw [List.mem_range, hRlen] at this
      exact this
    have hsel_mem : ∀ i ∈ sel, i < n := fun i hi =>
      hmem_order i ((List.take_sublist _ _).subset hi)
    have hsel_nd : sel.Nodup := (List.take_sublist _ _).nodup hnd_order
    have hsel_len : sel.length = L.toNat := by
      rw [hsel, List.length_take, hlen_order]
      omega
    have hsorted : List.Pairwise (remLT rem) order :=
      List.sorted_insertionSort (remLT rem) (List.range R.length)
    have hsplit : order = sel ++ order.drop L.toNat :=
      (List.take_append_drop _ _).symm
    have heq : split_quota total fracs =
        (List.range I.length).map
          (fun i => I.getD i 0 + if i ∈ sel then 1 else 0) := by
      rw [split_quota]
      rw [if_pos hLpos]
    refine ⟨sel, fun i hi => hn ▸ hsel_mem i hi, hsel_nd, ?_, ?_, ?_⟩
    · -- exact total
      rw [heq, hIlen]
      have hpermmap : ((List.range n).map
          (fun i => I.getD i 0 + if i ∈ sel then 1 else 0)).Perm
          (order.map (fun i => I.getD i 0 + if i ∈ sel then 1 else 0)) := by
        refine List.Perm.map _ ?_
        rw [hRlen] at hperm
        exact hperm.symm
      rw [hpermmap.sum_eq]
      rw [sum_map_add_split]
      have hite := sum_map_ite_mem order sel hnd_order ⟨order.drop L.toNat, hsplit⟩
      rw [hite]
      have hpermI : (order.map (fun i => I.getD i 0)).Perm
          ((List.range n).map (fun i => I.getD i 0)) := by
        refine List.Perm.map _ ?_
        rw [hRlen] at hperm
        exact hperm
      rw [hpermI.sum_eq, hIsum_range, hsel_len]
      omega
    · -- per-entry form
      intro i hi
      rw [heq]
      rw [getD_range_map _ I.length i (hIlen ▸ hi) 0]
      rw [hIget i hi]
    · -- largest remainders first
      intro i hi j hj hjnot
      have hij : remLT rem i j := by
        have hj_order : j ∈ order := by
          rw [hperm.mem_iff, List.mem_range, hRlen]
          exact hj
        have hj_drop : j ∈ order.drop L.toNat := by
          rcases List.mem_append.1 (hsplit ▸ hj_order) with h | h
          · exact absurd h hjnot
          · exact h
        have := (List.pairwise_append.1 (hsplit ▸ hsorted)).2.2
        exact this i hi j hj_drop
      have hi_n : i < n := hsel_mem i hi
      unfold remLT at hij ⊢
      rw [hrem] at hij
      simp only at hij
      rw [hRget i hi_n, hRget j hj, hIget i hi_n, hIget j hj] at hij
      exact hij
  · -- no leftover: the truncations already sum to the total
    have hL0 : L = 0 := by omega
    have heq : split_quota total fracs = I := by
      rw [split_quota]
      rw [if_neg hLpos]
    refine ⟨[], by simp, List.nodup_nil, ?_, ?_, by simp⟩
    · rw [heq]
      omega
    · intro i hi
      rw [heq]
      simp only [List.not_mem_nil, if_false]
      rw [hIget i (hn ▸ hi)]
      omega

/-! ## The claims -/

/-- C1 (counterexample): the claim "every timestamp in the list returned by
`plan` is ≥ now + 24, for every planner including the fixed-schedule replay
adapters" is false: `FixedPlanner.plan`/`OfflinePlanner.plan` return the
recorded timestamp of a case present in the assignment without any lead-time
guard.  With assignment {case 0 ↦ time 0} and `now = 0`, the returned
timestamp 0 is below `now + 24`. -/
theorem C1_counterexample :
    fixedPlan [(0, 0)] [0] 0 = [(0, 0)] ∧
    ¬ (∀ x ∈ fixedPlan [(0, 0)] [0] 0, 0 + 24 ≤ x.2) := by
  constructor
  · decide
  · intro h
    have := h (0, 0) (by decide)
    omega

/-- C1 (amended): every timestamp returned by the admission-wave planner's
`plan` and by the contextual-bandit planner's `plan` is ≥ now + 24; the
fixed-schedule replay adapters guarantee this only for cases absent from the
stored assignment (which receive the `now + 24` fallback), while a case
present in the assignment is returned its recorded timestamp unchanged. -/
theorem C1_lead_time_amended :
    (∀ (cap : ResourceType → ℕ → ℕ) (used : Used) (toPlan toReplan : List ℕ)
        (t fuel : ℕ) (out : List (ℕ × ℕ)) (u' : Used),
      orPlan cap used toPlan toReplan t fuel = some (out, u') →
      ∀ x ∈ out, t + 24 ≤ x.2) ∧
    (∀ (toPlan : List ℕ) (t : ℕ), ∀ x ∈ rl_plan toPlan t, t + 24 ≤ x.2) ∧
    (∀ (sched : List (ℕ × ℕ)) (toPlan : List ℕ) (now : ℕ),
      ∀ x ∈ fixedPlan sched toPlan now,
        sched.find? (fun p => p.1 = x.1) = none → x.2 = now + 24) := by
  refine ⟨?_, ?_, ?_⟩
  · intro cap used toPlan toReplan t fuel out u' h x hx
    exact (orPlan_spec cap used toPlan toReplan t fuel out u' h).2 x hx
  · intro toPlan t x hx
    exact rl_plan_time_ge toPlan t x hx
  · intro sched toPlan now x hx hnone
    unfold fixedPlan at hx
    rcases List.mem_map.1 hx with ⟨cid, _, rfl⟩
    simp only at hnone ⊢
    rw [hnone]
    rfl

/-- C1 witness: the amended lead-time statement evaluated on concrete runs
of all three planners. -/
theorem C1_lead_time_amended_witness :
    ((0 : ℕ) + 24 ≤ (((0 : ℕ), (32 : ℕ))).2) ∧
    ((0 : ℕ) + 24 ≤ (((7 : ℕ), (32 : ℕ))).2) ∧
    ((((5 : ℕ), (24 : ℕ))).2 = 0 + 24) :=
  ⟨C1_lead_time_amended.1 WEEKLY_CAP [] [0] [] 0 2 [(0, 32)]
      [((0, 3, 20), 0), ((0, 3, 16), 0), ((0, 3, 14), 0), ((0, 3, 12), 0),
       ((0, 3, 10), 0), ((0, 3, 8), 0), ((0, 2, 20), 0), ((0, 2, 16), 0),
       ((0, 2, 14), 0), ((0, 2, 12), 0), ((0, 2, 10), 0), ((0, 2, 8), 1)]
      (by decide) (0, 32) (by decide),
   C1_lead_time_amended.2.1 [7] 0 (7, 32) (by decide),
   C1_lead_time_amended.2.2 [] [5] 0 (5, 24) (by decide) (by decide)⟩

/-- C2: whenever the contextual-bandit planner's `schedule` emits an OR
level for the near-term slot (`max(now+14, tomorrow 08:00)`, hence ≥
now + 14), that level is no lower than any level previously committed for
the same (resource, time) pair and no lower than the last committed level. -/
theorem C2_bandit_near_term_monotone (s : RLState) (t : ℕ) (rnd : ℚ)
    (choice v : ℕ)
    (hv : (ResourceType.OR, rl_start_t t, v) ∈ (rl_schedule s t rnd choice).2) :
    t + 14 ≤ rl_start_t t ∧
    (∀ prev, s.scheduled (rl_start_t t) = some prev → prev ≤ v) ∧
    s.last_level ≤ v := by
  obtain ⟨h1, h2⟩ := rl_schedule_near_mono s t rnd choice v hv
  exact ⟨le_max_left _ _, h1, h2⟩

/-- C2 witness: at 18:00 with ε = 0, a state whose slot-32 commitment is 3
and whose last committed level is 5 emits level 5 = max(3, 5, chosen) for
the near-term slot. -/
theorem C2_bandit_near_term_monotone_witness :
    18 + 14 ≤ rl_start_t 18 ∧ (3 : ℕ) ≤ 5 ∧
    ({ rl_init 0 with scheduled := fun t' =>
        if t' = 32 then some 3 else none } : RLState).last_level ≤ 5 := by
  have h := C2_bandit_near_term_monotone
    { rl_init 0 with scheduled := fun t' => if t' = 32 then some 3 else none }
    18 1 2 5 (by decide)
  exact ⟨h.1, h.2.1 3 (by decide), h.2.2⟩

/-- C3: for every total ≥ 0 and every vector of non-negative fractional
shares summing to 1, `_split_quota` returns integer sub-quotas that sum
exactly to the total, each within 1 of its ideal share `fraction × total`,
and the rounding leftovers go to the waves with the largest fractional
remainders, ties broken in favour of the earlier wave. -/
theorem C3_largest_remainder (total : ℕ) (fracs : List ℚ)
    (hpos : ∀ f ∈ fracs, 0 ≤ f) (hsum : fracs.sum = 1) :
    (split_quota total fracs).sum = (total : ℤ) ∧
    (∀ i, i < fracs.length →
      |(((split_quota total fracs).getD i 0 : ℤ) : ℚ) -
        fracs.getD i 0 * total| ≤ 1) ∧
    (∀ i j, i < fracs.length → j < fracs.length →
      (split_quota total fracs).getD i 0 = pyInt (fracs.getD i 0 * total) + 1 →
      (split_quota total fracs).getD j 0 = pyInt (fracs.getD j 0 * total) →
      (fracs.getD j 0 * total - pyInt (fracs.getD j 0 * total) <
          fracs.getD i 0 * total - pyInt (fracs.getD i 0 * total) ∨
        (fracs.getD i 0 * total - pyInt (fracs.getD i 0 * total) =
            fracs.getD j 0 * total - pyInt (fracs.getD j 0 * total) ∧
          i < j))) := by
  obtain ⟨sel, hselmem, hselnd, hsum', hentry, hlr⟩ :=
    split_quota_chars total fracs hpos hsum
  refine ⟨hsum', ?_, ?_⟩
  · intro i hi
    have hraw : (0 : ℚ) ≤ fracs.getD i 0 * total := by
      have : 0 ≤ fracs.getD i 0 := by
        rcases lt_or_le i fracs.length with h | h
        · refine hpos _ ?_
          rw [List.getD_eq_getElem?_getD, List.getElem?_eq_getElem h]
          exact List.getElem_mem _
        · omega
      positivity
    have hlo := pyInt_le_self hraw
    have hhi := pyInt_lt_add_one hraw
    rw [hentry i hi]
    rw [abs_le]
    split <;> constructor <;> push_cast <;> linarith
  · intro i j hi hj hient hjent
    have hisel : i ∈ sel := by
      by_contra hnot
      rw [hentry i hi, if_neg hnot] at hient
      omega
    have hjsel : j ∉ sel := by
      intro hmem
      rw [hentry j hj, if_pos hmem] at hjent
      omega
    have := hlr i hisel j hj hjsel
    unfold remLT at this
    rcases this with h | ⟨h, hle⟩
    · exact Or.inl h
    · refine Or.inr ⟨h, ?_⟩
      rcases Nat.lt_or_ge i j with h' | h'
      · exact h'
      · have : i = j := by omega
        subst this
        exact absurd hisel hjsel

/-- C3 witness: the six admission-wave fractions at total 72. -/
theorem C3_largest_remainder_witness :
    (split_quota 72 wave_frac).sum = (72 : ℤ) :=
  (C3_largest_remainder 72 wave_frac
    (by intro f hf; fin_cases hf <;> norm_num)
    (by norm_num [wave_frac])).1

/-- C4: folding the planner's incremental update
`N += 1; Q += (reward − Q) / N` (the `qUpdate` used by
`RLSubmissionPlanner.schedule`) over rewards `r₁..rₙ` from the initial
`(Q, N) = (0, 0)` leaves exactly the arithmetic mean of `r₁..rₙ` (exact
rational arithmetic; the floating-point statement holds within rounding). -/
theorem C4_q_incremental_mean (rs : List ℚ) (hne : rs ≠ []) :
    (rs.foldl (fun p r => qUpdate p.1 p.2 r) ((0 : ℚ), (0 : ℕ))).1 =
      rs.sum / rs.length := by
  rw [qUpdate_fold rs 0 0 (Or.inr hne)]
  simp

/-- C4 witness: rewards 1, 3 leave the estimate 2. -/
theorem C4_q_incremental_mean_witness :
    ([(1 : ℚ), 3].foldl (fun p r => qUpdate p.1 p.2 r) ((0 : ℚ), (0 : ℕ))).1 =
      ([(1 : ℚ), 3].sum / ([(1 : ℚ), 3].length : ℚ)) :=
  C4_q_incremental_mean [1, 3] (by simp)

/-- C5: the admission-wave planner at `now = 0` (warm start) with 200
pending cases under `WEEKLY_CAP` computes a day-1 quota of 72 (inside the
warm-start clamp [56, 72]), splits it into the wave sub-quotas
[26, 16, 11, 9, 6, 4], and fills all six day-1 waves (times 32..44)
completely — the first 72 decisions — before any case is placed on day 2
(times ≥ 56). -/
theorem C5_warm_start_scenario :
    day_quota_adjusted WEEKLY_CAP (dow_1_to_7 32) 200 1 = 72 ∧
    56 ≤ day_quota_adjusted WEEKLY_CAP (dow_1_to_7 32) 200 1 ∧
    day_quota_adjusted WEEKLY_CAP (dow_1_to_7 32) 200 1 ≤ 72 ∧
    split_quota 72 wave_frac = [26, 16, 11, 9, 6, 4] ∧
    (orPlan WEEKLY_CAP [] (List.range 200) [] 0 5).map (fun r =>
      ([32, 34, 36, 38, 40, 44].map
        (fun ts => r.1.countP (fun x => x.2 == ts)),
       (r.1.take 72).all (fun x => x.2 ≤ 44),
       (r.1.drop 72).all (fun x => 56 ≤ x.2))) =
      some ([26, 16, 11, 9, 6, 4], true, true) := by
  refine ⟨by decide, by decide, by decide, ?_, ?_⟩
  · decide
  · decide

/-- C6: calling `ORPlanner.plan` twice from a fresh ledger with the same
pending set, the same re-plan set and the same simulation time leaves every
two-day-horizon ledger bucket at or below that bucket's wave sub-quota: the
ledger count already recorded by the first call is subtracted before the
second call computes remaining room. -/
theorem C6_ledger_idempotent (cap : ResourceType → ℕ → ℕ)
    (toPlan toReplan : List ℕ) (t fuel : ℕ)
    (out1 out2 : List (ℕ × ℕ)) (u1 u2 : Used)
    (h1 : orPlan cap [] toPlan toReplan t fuel = some (out1, u1))
    (h2 : orPlan cap u1 toPlan toReplan t fuel = some (out2, u2)) :
    ∀ off idx, off < 2 → idx < 6 →
      (lget u2 (horizon_key (next_8am_at_or_after (t + 24)) off idx) : ℤ) ≤
        horizon_subq cap (next_8am_at_or_after (t + 24))
          (toPlan.length + toReplan.length) off idx := by
  intro off idx hoff hidx
  have hA := orPlan_horizon_bound cap [] toPlan toReplan t fuel out1 u1 h1
    off idx hoff hidx
  have hB := orPlan_horizon_bound cap u1 toPlan toReplan t fuel out2 u2 h2
    off idx hoff hidx
  have hz : lget ([] : Used)
      (horizon_key (next_8am_at_or_after (t + 24)) off idx) = 0 := rfl
  rw [hz] at hA
  have hsq : 0 ≤ horizon_subq cap (next_8am_at_or_after (t + 24))
      (toPlan.length + toReplan.length) off idx := split_quota_getD_nonneg _ _
  omega

/-- C6 witness: two identical single-case calls at `now = 0`; the day-1
wave-0 bucket stays at 2 ≤ 26. -/
theorem C6_ledger_idempotent_witness :
    (lget [((0, 3, 20), 0), ((0, 3, 16), 0), ((0, 3, 14), 0), ((0, 3, 12), 0),
       ((0, 3, 10), 0), ((0, 3, 8), 0), ((0, 2, 20), 0), ((0, 2, 16), 0),
       ((0, 2, 14), 0), ((0, 2, 12), 0), ((0, 2, 10), 0), ((0, 2, 8), 2),
       ((0, 3, 20), 0), ((0, 3, 16), 0), ((0, 3, 14), 0), ((0, 3, 12), 0),
       ((0, 3, 10), 0), ((0, 3, 8), 0), ((0, 2, 20), 0), ((0, 2, 16), 0),
       ((0, 2, 14), 0), ((0, 2, 12), 0), ((0, 2, 10), 0), ((0, 2, 8), 1)]
      (horizon_key (next_8am_at_or_after (0 + 24)) 0 0) : ℤ) ≤
      horizon_subq WEEKLY_CAP (next_8am_at_or_after (0 + 24))
        (([3] : List ℕ).length + ([] : List ℕ).length) 0 0 :=
  C6_ledger_idempotent WEEKLY_CAP [3] [] 0 3 [(3, 32)] [(3, 32)]
    [((0, 3, 20), 0), ((0, 3, 16), 0), ((0, 3, 14), 0), ((0, 3, 12), 0),
     ((0, 3, 10), 0), ((0, 3, 8), 0), ((0, 2, 20), 0), ((0, 2, 16), 0),
     ((0, 2, 14), 0), ((0, 2, 12), 0), ((0, 2, 10), 0), ((0, 2, 8), 1)]
    [((0, 3, 20), 0), ((0, 3, 16), 0), ((0, 3, 14), 0), ((0, 3, 12), 0),
     ((0, 3, 10), 0), ((0, 3, 8), 0), ((0, 2, 20), 0), ((0, 2, 16), 0),
     ((0, 2, 14), 0), ((0, 2, 12), 0), ((0, 2, 10), 0), ((0, 2, 8), 2),
     ((0, 3, 20), 0), ((0, 3, 16), 0), ((0, 3, 14), 0), ((0, 3, 12), 0),
     ((0, 3, 10), 0), ((0, 3, 8), 0), ((0, 2, 20), 0), ((0, 2, 16), 0),
     ((0, 2, 14), 0), ((0, 2, 12), 0), ((0, 2, 10), 0), ((0, 2, 8), 1)]
    (by decide) (by decide)
    0 0 (by decide) (by decide)

/-- C7: with fuel at least one day per ledger-touched day plus one day per
pending case, `ORPlanner.plan` terminates with an empty queue, and the
returned decision list contains the cases of `cases_to_plan` exactly (as a
multiset); when `cases_to_plan` is duplicate-free, each case receives
exactly one admission timestamp. -/
theorem C7_plan_terminates_covers (cap : ResourceType → ℕ → ℕ) (used : Used)
    (toPlan toReplan : List ℕ) (t fuel D : ℕ)
    (hsupp : ∀ k : Key, lget used k ≠ 0 → dayIdx k < D)
    (hfuel : D + toPlan.length + 1 ≤ fuel) (hnd : toPlan.Nodup) :
    ∃ out u', orPlan cap used toPlan toReplan t fuel = some (out, u') ∧
      (out.map Prod.fst).Perm toPlan ∧
      ∀ c ∈ toPlan, (out.map Prod.fst).count c = 1 := by
  have hsome := orPlan_total cap used toPlan toReplan t fuel D hsupp hfuel
  obtain ⟨⟨out, u'⟩, hres⟩ := Option.isSome_iff_exists.1 hsome
  have hperm := (orPlan_spec cap used toPlan toReplan t fuel out u' hres).1
  refine ⟨out, u', hres, hperm, ?_⟩
  intro c hc
  rw [hperm.count_eq]
  exact List.count_eq_one_of_mem hnd hc

/-- C7 witness: a fresh planner with two pending cases and fuel 3. -/
theorem C7_plan_terminates_covers_witness :
    ∃ out u', orPlan WEEKLY_CAP [] [0, 1] [] 0 3 = some (out, u') ∧
      (out.map Prod.fst).Perm [0, 1] ∧
      ∀ c ∈ [0, 1], (out.map Prod.fst).count c = 1 :=
  C7_plan_terminates_covers WEEKLY_CAP [] [0, 1] [] 0 3 0
    (fun k hk => absurd rfl hk) (by decide) (by decide)

/-- C8 (counterexample): the claim "given zero rows for an activity, the
extractor falls back to mean 3600 / std 1800 for that activity" is false:
an activity with no rows never enters `df['event_label'].unique()`, so it
gets no entry at all in `mean_sec`/`std_sec`. -/
theorem C8_counterexample :
    mean_sec [("SURGERY", some 100)] "INTAKE" = none ∧
    ¬ mean_sec [("SURGERY", some 100)] "INTAKE" = some 3600 := by
  constructor
  · decide
  · decide

/-- C8 (amended): two INTAKE rows with durations 1800 s and 2200 s produce
`mean_sec["INTAKE"] = 2000.0` and a sample standard deviation of
√80000 ≈ 282.84 (within ±0.1, stated via squares); an activity with zero
rows gets no entry at all; the 3600/1800 fallback applies only to an
activity whose rows all have undefined durations. -/
theorem C8_calibration_amended :
    mean_sec [("INTAKE", some 1800), ("INTAKE", some 2200)] "INTAKE" =
      some 2000 ∧
    std_sq_sec [("INTAKE", some 1800), ("INTAKE", some 2200)] "INTAKE" =
      some (some 80000) ∧
    ((282.84 : ℚ) - 0.1) * ((282.84 : ℚ) - 0.1) ≤ 80000 ∧
    (80000 : ℚ) ≤ ((282.84 : ℚ) + 0.1) * ((282.84 : ℚ) + 0.1) ∧
    mean_sec [("INTAKE", some 1800), ("INTAKE", some 2200)] "IMAGING" =
      none ∧
    mean_sec [("NURSING", none)] "NURSING" = some 3600 ∧
    std_sq_sec [("NURSING", none)] "NURSING" = some (some (1800 * 1800)) := by
  refine ⟨?_, ?_, ?_, ?_, ?_, ?_, ?_⟩ <;> decide

/-- C9: a case offered only for re-planning is never given a timestamp by
`ORPlanner.plan`: every returned decision concerns a case of
`cases_to_plan`. -/
theorem C9_replan_ignored (cap : ResourceType → ℕ → ℕ) (used : Used)
    (toPlan toReplan : List ℕ) (t fuel : ℕ) (out : List (ℕ × ℕ)) (u' : Used)
    (h : orPlan cap used toPlan toReplan t fuel = some (out, u'))
    (c : ℕ) (hc : c ∈ toReplan) (hnot : c ∉ toPlan) :
    ∀ ts, (c, ts) ∉ out := by
  intro ts hmem
  have hperm := (orPlan_spec cap used toPlan toReplan t fuel out u' h).1
  have hin : c ∈ out.map Prod.fst := List.mem_map.2 ⟨(c, ts), hmem, rfl⟩
  rw [hperm.mem_iff] at hin
  exact hnot hin

/-- C9 witness: case 2 is offered only for re-planning and receives no
timestamp. -/
theorem C9_replan_ignored_witness : ((2 : ℕ), (32 : ℕ)) ∉ [((1 : ℕ), (32 : ℕ))] :=
  C9_replan_ignored WEEKLY_CAP [] [1] [2] 0 3 [(1, 32)]
    [((0, 3, 20), 0), ((0, 3, 16), 0), ((0, 3, 14), 0), ((0, 3, 12), 0),
     ((0, 3, 10), 0), ((0, 3, 8), 0), ((0, 2, 20), 0), ((0, 2, 16), 0),
     ((0, 2, 14), 0), ((0, 2, 12), 0), ((0, 2, 10), 0), ((0, 2, 8), 1)]
    (by decide) 2 (by decide) (by decide) 32

/-- C10: when `RLSubmissionPlanner.schedule` is called at an hour other
than 18, it returns the empty emission list and the planner state —
Q-table, visit counts, metrics, last state/action, last level and the
committed-schedule map — is unchanged. -/
theorem C10_schedule_frame (s : RLState) (t : ℕ) (rnd : ℚ) (choice : ℕ)
    (h : t % 24 ≠ 18) :
    rl_schedule s t rnd choice = (s, []) := by
  unfold rl_schedule
  rw [if_pos h]

/-- C10 witness: a freshly constructed planner called at hour 0. -/
theorem C10_schedule_frame_witness :
    rl_schedule (rl_init (1 / 10)) 0 0 2 = (rl_init (1 / 10), []) :=
  C10_schedule_frame (rl_init (1 / 10)) 0 0 2 (by decide)

end BPO
